import Mathlib

/-!
Verification of the `MemTable` component of a LevelDB-style storage engine
(`db/memtable.h`, `db/memtable.cc`), over a shallow embedding.

Byte strings are modelled as `List Nat` (each element one byte).  The parts of
the repository present in `src/` (`MemTable::Add`, `MemTable::Get`,
`MemTable::KeyComparator`, `MemTableIterator`, `EncodeKey`,
`GetLengthPrefixedSlice`, `Ref`/`Unref`) are translated directly; the external
collaborators that are not part of `src/` (the varint codec of `util/coding`,
the internal-key comparator and lookup key of `db/dbformat`, the skip list of
`db/skiplist` and the arena of `util/arena`) are modelled from the spec, as
marked in their doc comments.
-/

namespace LevelDB

/-- Modelled from the spec (`util/coding` is not in `src/`): sizes are
"variable-length encoded unsigned integers", base-128 with a continuation
high bit, least-significant group first (the format written by
`EncodeVarint32` / `PutVarint32`).  The fuel bounds the group count; a
32-bit value needs at most five groups, so `encodeVarint32` runs the loop
with fuel 5 (its argument is a `uint32`). -/
def encodeVarint32Aux : Nat → Nat → List Nat
  | 0, n => [n]
  | fuel + 1, n =>
    if n < 128 then [n]
    else (n % 128 + 128) :: encodeVarint32Aux fuel (n / 128)

/-- The bytes `EncodeVarint32` writes for a 32-bit value. -/
def encodeVarint32 (n : Nat) : List Nat :=
  encodeVarint32Aux 5 n

/-- Modelled from the spec (`util/coding` is not in `src/`): the byte length
`VarintLength` computes for a value, used by `Add` to size the allocation.
Its argument is a `uint64`, needing at most ten base-128 groups. -/
def varintLengthAux : Nat → Nat → Nat
  | 0, _ => 1
  | fuel + 1, n => if n < 128 then 1 else 1 + varintLengthAux fuel (n / 128)

/-- The byte count `VarintLength` computes for a 64-bit value. -/
def varintLength (n : Nat) : Nat :=
  varintLengthAux 10 n

/-- Modelled from the spec (`util/coding` is not in `src/`): the decoding loop
of `GetVarint32Ptr`, which reads at most five bytes (the `p + 5` limit in
`GetLengthPrefixedSlice` and `MemTable::Get`).  Returns the decoded value and
the remaining bytes, or `none` on a truncated or over-long encoding. -/
def getVarint32Loop : Nat → Nat → Nat → List Nat → Option (Nat × List Nat)
  | 0, _, _, _ => none
  | _ + 1, _, _, [] => none
  | fuel + 1, shift, acc, b :: rest =>
    if b < 128 then some (acc + b * 2 ^ shift, rest)
    else getVarint32Loop fuel (shift + 7) (acc + (b - 128) * 2 ^ shift) rest

/-- Modelled from the spec (`util/coding` is not in `src/`): `GetVarint32Ptr`
with a five-byte limit, as both call sites in `memtable.cc` use `p + 5`. -/
def getVarint32 (l : List Nat) : Option (Nat × List Nat) :=
  getVarint32Loop 5 0 0 l

/-- Modelled from the spec (`util/coding` is not in `src/`): `EncodeFixed64`,
eight bytes, little-endian. -/
def encodeFixed64 (n : Nat) : List Nat :=
  [n % 256, n / 2 ^ 8 % 256, n / 2 ^ 16 % 256, n / 2 ^ 24 % 256,
   n / 2 ^ 32 % 256, n / 2 ^ 40 % 256, n / 2 ^ 48 % 256, n / 2 ^ 56 % 256]

/-- Modelled from the spec (`util/coding` is not in `src/`): `DecodeFixed64`
reads the first eight bytes, little-endian. -/
def decodeFixed64 : List Nat → Nat
  | b0 :: b1 :: b2 :: b3 :: b4 :: b5 :: b6 :: b7 :: _ =>
      b0 + 2 ^ 8 * b1 + 2 ^ 16 * b2 + 2 ^ 24 * b3 +
      2 ^ 32 * b4 + 2 ^ 40 * b5 + 2 ^ 48 * b6 + 2 ^ 56 * b7
  | _ => 0

/-- `GetLengthPrefixedSlice` (`memtable.cc`): decode a varint32 length and
return that many following bytes. -/
def getLengthPrefixedSlice (data : List Nat) : List Nat :=
  match getVarint32 data with
  | some (len, rest) => rest.take len
  | none => []

/-- The operation tag type (`db/dbformat.h` is not in `src/`; modelled from the
spec: the tag's low byte is the operation type, `Deletion` a tombstone,
`Value` a live write). -/
inductive ValueType where
  | deletion
  | value
deriving DecidableEq, Repr

/-- Modelled from the spec (`db/dbformat.h` is not in `src/`): the numeric
codes of the two operation types, `kTypeDeletion = 0` and `kTypeValue = 1`. -/
def ValueType.code : ValueType → Nat
  | .deletion => 0
  | .value => 1

/-- The 64-bit tag written by `Add`: `(s << 8) | type`, computed in `uint64`
arithmetic (`memtable.cc` line 120). -/
def tagOf (s : Nat) (t : ValueType) : Nat :=
  ((s <<< 8) % 2 ^ 64) ||| t.code

/-- The user key of an internal key: all but the trailing eight tag bytes
(modelled from the spec, `db/dbformat` is not in `src/`). -/
def extractUserKey (ik : List Nat) : List Nat :=
  ik.take (ik.length - 8)

/-- The 64-bit tag of an internal key: its trailing eight bytes, decoded
little-endian (modelled from the spec, `db/dbformat` is not in `src/`). -/
def extractTag (ik : List Nat) : Nat :=
  decodeFixed64 (ik.drop (ik.length - 8))

/-- Modelled from the spec (`db/dbformat` is not in `src/`):
`InternalKeyComparator::Compare` orders internal keys by user key ascending
under the user comparator `ucmp` and, for equal user keys, by the 64-bit tag
descending. -/
def internalCompare (ucmp : List Nat → List Nat → Int) (a b : List Nat) : Int :=
  let r := ucmp (extractUserKey a) (extractUserKey b)
  if r = 0 then
    if extractTag b < extractTag a then -1
    else if extractTag a < extractTag b then 1
    else 0
  else r

/-- `MemTable::KeyComparator::operator()` (`memtable.cc` lines 36-42): both
arguments are length-prefixed internal keys; strip the prefix and delegate to
the internal-key comparator. -/
def keyComparatorFn (ucmp : List Nat → List Nat → Int) (a b : List Nat) : Int :=
  internalCompare ucmp (getLengthPrefixedSlice a) (getLengthPrefixedSlice b)

/-- Modelled from the spec (`db/skiplist.h` is not in `src/`): the Ordered
Index keeps entries in comparator order; `Insert` places the new entry before
the first existing entry that is not below it.  The table is modelled as the
in-order list of its entries. -/
def tableInsert (ucmp : List Nat → List Nat → Int) (e : List Nat) :
    List (List Nat) → List (List Nat)
  | [] => [e]
  | x :: xs =>
    if keyComparatorFn ucmp x e < 0 then x :: tableInsert ucmp e xs
    else e :: x :: xs

/-- Modelled from the spec (`db/skiplist.h` is not in `src/`): the index
iterator's `Seek` finds the first entry at-or-after the target, i.e. the first
entry not comparing below the target. -/
def seekGE (ucmp : List Nat → List Nat → Int) (target : List Nat) :
    List (List Nat) → Option (List Nat)
  | [] => none
  | x :: xs =>
    if keyComparatorFn ucmp x target < 0 then seekGE ucmp target xs
    else some x

/-- `EncodeKey` (`memtable.cc` lines 48-53): length-prefix the target.  The
`target.size()` argument passes through `PutVarint32`'s 32-bit parameter. -/
def encodeKey (target : List Nat) : List Nat :=
  encodeVarint32 (target.length % 2 ^ 32) ++ target

/-- The entry bytes produced by `MemTable::Add` (`memtable.cc` lines 94-128):
varint32 of `len(key) + 8`, the key bytes, the fixed 8-byte tag
`(s << 8) | type`, varint32 of `len(value)`, the value bytes.  The varint32
arguments pass through `EncodeVarint32`'s 32-bit parameter. -/
def encodeEntry (s : Nat) (t : ValueType) (key value : List Nat) : List Nat :=
  encodeVarint32 ((key.length + 8) % 2 ^ 32) ++ key ++
  encodeFixed64 (tagOf s t) ++
  encodeVarint32 (value.length % 2 ^ 32) ++ value

/-- The allocation size `encoded_len` computed by `Add`:
`VarintLength(internal_key_size) + internal_key_size + VarintLength(val_size)
+ val_size` (`memtable.cc` lines 106-108). -/
def addEncodedLen (key value : List Nat) : Nat :=
  varintLength (key.length + 8) + (key.length + 8) +
  varintLength value.length + value.length

/-- One `Add` call's arguments. -/
structure AddOp where
  seq : Nat
  ty : ValueType
  key : List Nat
  value : List Nat
deriving DecidableEq, Repr

/-- The memtable state: the ordered entries of the index, and the arena's
byte counter (the arena is not in `src/`; modelled from the spec as a running
total of bytes allocated, read by `ApproximateMemoryUsage`). -/
structure MemTableM where
  entries : List (List Nat)
  usage : Nat
deriving DecidableEq, Repr

/-- A freshly constructed memtable: empty index, empty arena. -/
def emptyMT : MemTableM := ⟨[], 0⟩

/-- `MemTable::Add`: allocate `encoded_len` bytes from the arena, write the
encoded entry, insert it into the index. -/
def memAdd (ucmp : List Nat → List Nat → Int) (op : AddOp) (m : MemTableM) :
    MemTableM :=
  { entries := tableInsert ucmp (encodeEntry op.seq op.ty op.key op.value) m.entries,
    usage := m.usage + addEncodedLen op.key op.value }

/-- Run a sequence of `Add` calls on a table. -/
def runAdds (ucmp : List Nat → List Nat → Int) (ops : List AddOp) (m : MemTableM) :
    MemTableM :=
  ops.foldl (fun m op => memAdd ucmp op m) m

/-- Build a memtable by a sequence of `Add` calls on a fresh table. -/
def mkMemTable (ucmp : List Nat → List Nat → Int) (ops : List AddOp) : MemTableM :=
  runAdds ucmp ops emptyMT

/-- `ApproximateMemoryUsage` (`memtable.cc` line 31): the arena's counter. -/
def approximateMemoryUsage (m : MemTableM) : Nat := m.usage

/-- Modelled from the spec (`db/dbformat` is not in `src/`): the lookup key's
`memtable_key()` — the user key length-prefixed in internal-key shape, with
tag `(sequence << 8) | max_tag_byte` so a seek lands on the newest entry of
that user key with sequence at most `S`. -/
def lookupKeyBytes (k : List Nat) (S : Nat) : List Nat :=
  encodeVarint32 ((k.length + 8) % 2 ^ 32) ++ k ++
  encodeFixed64 (((S <<< 8) % 2 ^ 64) ||| 255)

/-- The status out-parameter of `Get`: either untouched/`OK` or `NotFound`. -/
inductive Status where
  | ok
  | notFound
deriving DecidableEq, Repr

/-- `MemTable::Get` (`memtable.cc` lines 137-178), with the out-parameters
made explicit: takes the previous contents `v0` of `*value` and `s0` of `*s`,
returns the boolean result together with the new contents of both. -/
def memGet (ucmp : List Nat → List Nat → Int) (m : MemTableM)
    (k : List Nat) (S : Nat) (v0 : List Nat) (s0 : Status) :
    Bool × List Nat × Status :=
  match seekGE ucmp (lookupKeyBytes k S) m.entries with
  | none => (false, v0, s0)
  | some entry =>
    match getVarint32 entry with
    | none => (false, v0, s0)
    | some (keyLength, rest) =>
      if ucmp (rest.take (keyLength - 8)) k = 0 then
        let tag := decodeFixed64 (rest.drop (keyLength - 8))
        if tag &&& 255 = 1 then
          (true, getLengthPrefixedSlice (rest.drop keyLength), s0)
        else if tag &&& 255 = 0 then
          (true, v0, Status.notFound)
        else (false, v0, s0)
      else (false, v0, s0)

/-- `MemTableIterator` (`memtable.cc` lines 58-87): a cursor over the index.
The position is an integer index into the in-order entry list; the iterator is
valid while the index is in range (the skip list iterator becomes invalid when
`Next` runs past the last node or `Prev` past the first). -/
structure MTIter where
  entries : List (List Nat)
  pos : Int
deriving DecidableEq, Repr

/-- `MemTableIterator::Valid`. -/
def iterValid (it : MTIter) : Prop :=
  0 ≤ it.pos ∧ it.pos < it.entries.length

instance (it : MTIter) : Decidable (iterValid it) := by
  unfold iterValid; infer_instance

/-- `MemTableIterator::SeekToFirst`. -/
def iterSeekToFirst (it : MTIter) : MTIter :=
  { it with pos := 0 }

/-- `MemTableIterator::SeekToLast`. -/
def iterSeekToLast (it : MTIter) : MTIter :=
  { it with pos := (it.entries.length : Int) - 1 }

/-- `MemTableIterator::Next`. -/
def iterNext (it : MTIter) : MTIter :=
  { it with pos := it.pos + 1 }

/-- `MemTableIterator::Prev`. -/
def iterPrev (it : MTIter) : MTIter :=
  { it with pos := it.pos - 1 }

/-- The raw entry bytes under the cursor (empty list when invalid; the code
never dereferences an invalid cursor). -/
def iterEntry (it : MTIter) : List Nat :=
  it.entries.getD it.pos.toNat []

/-- `MemTableIterator::key`: the length-prefixed internal key of the current
entry. -/
def iterKey (it : MTIter) : List Nat :=
  getLengthPrefixedSlice (iterEntry it)

/-- `MemTableIterator::value`: the length-prefixed value that follows the
internal key of the current entry. -/
def iterValue (it : MTIter) : List Nat :=
  match getVarint32 (iterEntry it) with
  | some (len, rest) => getLengthPrefixedSlice (rest.drop len)
  | none => []

/-- `MemTableIterator::Seek` (`memtable.cc` line 71): length-prefix the caller
key via `EncodeKey` and seek the index to the first entry at-or-after it. -/
def iterSeek (ucmp : List Nat → List Nat → Int) (it : MTIter) (k : List Nat) :
    MTIter :=
  { it with
    pos := (it.entries.findIdx
      (fun x => !(keyComparatorFn ucmp x (encodeKey k) < 0)) : Int) }

/-- The decoded (internal key, value) pair of one entry, as the iterator
yields it. -/
def entryKV (e : List Nat) : List Nat × List Nat :=
  match getVarint32 e with
  | some (len, rest) => (rest.take len, getLengthPrefixedSlice (rest.drop len))
  | none => ([], [])

/-- Forward traversal: yield the current decoded pair while valid, advance. -/
def fwdTraverse : Nat → MTIter → List (List Nat × List Nat)
  | 0, _ => []
  | fuel + 1, it =>
    if iterValid it then entryKV (iterEntry it) :: fwdTraverse fuel (iterNext it)
    else []

/-- Backward traversal: yield the current decoded pair while valid, retreat. -/
def bwdTraverse : Nat → MTIter → List (List Nat × List Nat)
  | 0, _ => []
  | fuel + 1, it =>
    if iterValid it then entryKV (iterEntry it) :: bwdTraverse fuel (iterPrev it)
    else []

/-- `SeekToFirst` then full forward traversal of a table's entries. -/
def forwardTraversal (entries : List (List Nat)) : List (List Nat × List Nat) :=
  fwdTraverse entries.length (iterSeekToFirst ⟨entries, 0⟩)

/-- `SeekToLast` then full backward traversal of a table's entries. -/
def backwardTraversal (entries : List (List Nat)) : List (List Nat × List Nat) :=
  bwdTraverse entries.length (iterSeekToLast ⟨entries, 0⟩)

/-- The reference-count operations of `MemTable` (`memtable.h` lines 39-50). -/
inductive RefOp where
  | ref
  | unref
deriving DecidableEq, Repr

/-- The lifecycle state of a table: alive with a (signed) reference count, or
destroyed. -/
inductive LifeState where
  | alive (refs : Int)
  | destroyed
deriving DecidableEq, Repr

/-- One step of the reference lifecycle: `Ref` increments; `Unref` decrements
and deletes the table when the count reaches zero or below
(`memtable.h` lines 40-50).  Operations on a destroyed table are a contract
violation; the state stays destroyed. -/
def stepRef : LifeState → RefOp → LifeState
  | .alive r, .ref => .alive (r + 1)
  | .alive r, .unref => if r - 1 ≤ 0 then .destroyed else .alive (r - 1)
  | .destroyed, _ => .destroyed

/-- Run a sequence of `Ref`/`Unref` calls on a newly constructed table, whose
initial reference count is zero (`memtable.cc` line 26). -/
def runRefOps (l : List RefOp) : LifeState :=
  l.foldl stepRef (.alive 0)

/-- The decode procedure of claim C4, assembled from the pieces the iterator
uses (`GetLengthPrefixedSlice`, the 8-byte tag split, `tag >> 8`,
`tag & 0xff`): recover (user key, sequence, type code, value) from entry
bytes. -/
def decodeEntry (e : List Nat) : Option (List Nat × Nat × Nat × List Nat) :=
  match getVarint32 e with
  | none => none
  | some (klen, rest) =>
    let ik := rest.take klen
    let uk := ik.take (klen - 8)
    let tag := decodeFixed64 (ik.drop (klen - 8))
    match getVarint32 (rest.drop klen) with
    | none => none
    | some (vlen, vrest) => some (uk, tag >>> 8, tag &&& 255, vrest.take vlen)

/-- The default bytewise user comparator (`util/comparator` is not in `src/`;
modelled from the spec's "pluggable user comparator" as the standard
lexicographic byte ordering, shorter strings first on ties).  Used to
instantiate the parametric theorems on concrete inputs. -/
def bytewiseCompare : List Nat → List Nat → Int
  | [], [] => 0
  | [], _ :: _ => -1
  | _ :: _, [] => 1
  | a :: as, b :: bs =>
    if a < b then -1 else if b < a then 1 else bytewiseCompare as bs

/-- The ordering laws the engine requires of a user comparator ("total order"
in the spec): comparing in the reverse direction flips the sign, and the
induced weak order is transitive. -/
structure CmpLaws (c : List Nat → List Nat → Int) : Prop where
  lt_iff : ∀ a b, c a b < 0 ↔ 0 < c b a
  le_trans : ∀ a b d, c a b ≤ 0 → c b d ≤ 0 → c a d ≤ 0

/-- The encoded entry of an `Add` call. -/
def AddOp.entry (op : AddOp) : List Nat :=
  encodeEntry op.seq op.ty op.key op.value

/-- The outcome `Get` produces for a matching entry of type `t` holding value
`vu`, given previous out-parameter contents `v0` and `s0`: `Value` yields
Found with the stored bytes, `Deletion` yields result `true` with a
`NotFound` status. -/
def getOutcome (t : ValueType) (vu v0 : List Nat) (s0 : Status) :
    Bool × List Nat × Status :=
  match t with
  | .value => (true, vu, s0)
  | .deletion => (true, v0, Status.notFound)

/-- Encoding preconditions on a sequence of `Add` calls, from the data model:
sequence numbers are 56-bit, and key/value lengths fit the 32-bit length
fields (`EncodeVarint32` takes a `uint32`). -/
def OpsWF (ops : List AddOp) : Prop :=
  ∀ op ∈ ops, op.seq < 2 ^ 56 ∧ op.key.length + 8 < 2 ^ 32 ∧
    op.value.length < 2 ^ 32

instance (ops : List AddOp) : Decidable (OpsWF ops) := by
  unfold OpsWF; infer_instance

/-- Sequence numbers are never reused across the `Add` calls of one table
(they are strictly increasing across all writes in the data model). -/
def DistinctSeqs (ops : List AddOp) : Prop :=
  ops.Pairwise (fun a b => a.seq ≠ b.seq)

instance (ops : List AddOp) : Decidable (DistinctSeqs ops) := by
  unfold DistinctSeqs; infer_instance

/-- The sequence number encoded in an internal key: the high 56 bits of its
trailing 8-byte tag. -/
def seqOfIK (ik : List Nat) : Nat :=
  extractTag ik >>> 8

/-- The sequence number encoded in a length-prefixed entry. -/
def entrySeq (e : List Nat) : Nat :=
  seqOfIK (getLengthPrefixedSlice e)

/-! ### Codec lemmas -/

lemma getVarint32Loop_encode :
    ∀ (fuel n shift acc : Nat) (rest : List Nat), 1 ≤ fuel → n < 2 ^ (7 * fuel) →
      getVarint32Loop fuel shift acc (encodeVarint32Aux fuel n ++ rest) =
        some (acc + n * 2 ^ shift, rest) := by
  intro fuel
  induction fuel with
  | zero => omega
  | succ f ih =>
    intro n shift acc rest _ hn
    rw [encodeVarint32Aux]
    split
    · next h =>
      simp [getVarint32Loop, h]
    · next h =>
      have hb : ¬ (n % 128 + 128 < 128) := by omega
      simp only [List.cons_append, getVarint32Loop, if_neg hb]
      have hf : 1 ≤ f := by
        rcases Nat.eq_zero_or_pos f with h0 | h0
        · subst h0; norm_num at hn; omega
        · exact h0
      have hn' : n / 128 < 2 ^ (7 * f) := by
        have hpow : 2 ^ (7 * (f + 1)) = 2 ^ (7 * f) * 128 := by
          rw [show 7 * (f + 1) = 7 * f + 7 by ring, pow_add]; norm_num
        apply Nat.div_lt_of_lt_mul
        calc n < 2 ^ (7 * (f + 1)) := hn
          _ = 2 ^ (7 * f) * 128 := hpow
          _ = 128 * 2 ^ (7 * f) := by ring
      simp only [List.append_eq]
      rw [ih (n / 128) (shift + 7) (acc + (n % 128 + 128 - 128) * 2 ^ shift) rest hf hn']
      congr 2
      have hsub : n % 128 + 128 - 128 = n % 128 := by omega
      rw [hsub]
      have hdecomp : n % 128 + 128 * (n / 128) = n := Nat.mod_add_div n 128
      set a := n % 128 with ha
      set b := n / 128 with hb2
      rw [pow_add, ← hdecomp]
      ring

lemma getVarint32_encode (n : Nat) (hn : n < 2 ^ 32) (rest : List Nat) :
    getVarint32 (encodeVarint32 n ++ rest) = some (n, rest) := by
  unfold getVarint32 encodeVarint32
  rw [getVarint32Loop_encode 5 n 0 0 rest (by omega) (by norm_num; omega)]
  simp

lemma length_encodeVarint32Aux :
    ∀ (fE fV n : Nat), 1 ≤ fE → 1 ≤ fV → n < 2 ^ (7 * fE) → n < 2 ^ (7 * fV) →
      (encodeVarint32Aux fE n).length = varintLengthAux fV n := by
  intro fE
  induction fE with
  | zero => omega
  | succ e ih =>
    intro fV n _ hfV hnE hnV
    obtain ⟨w, rfl⟩ : ∃ w, fV = w + 1 := ⟨fV - 1, by omega⟩
    rw [encodeVarint32Aux, varintLengthAux]
    split
    · next h => simp [h]
    · next h =>
      have he : 1 ≤ e := by
        rcases Nat.eq_zero_or_pos e with h0 | h0
        · subst h0; norm_num at hnE; omega
        · exact h0
      have hw : 1 ≤ w := by
        rcases Nat.eq_zero_or_pos w with h0 | h0
        · subst h0; norm_num at hnV; omega
        · exact h0
      have hdivE : n / 128 < 2 ^ (7 * e) := by
        have hpow : 2 ^ (7 * (e + 1)) = 128 * 2 ^ (7 * e) := by
          rw [show 7 * (e + 1) = 7 * e + 7 by ring, pow_add]; ring_nf
        exact Nat.div_lt_of_lt_mul (hpow ▸ hnE)
      have hdivV : n / 128 < 2 ^ (7 * w) := by
        have hpow : 2 ^ (7 * (w + 1)) = 128 * 2 ^ (7 * w) := by
          rw [show 7 * (w + 1) = 7 * w + 7 by ring, pow_add]; ring_nf
        exact Nat.div_lt_of_lt_mul (hpow ▸ hnV)
      rw [List.length_cons, ih w (n / 128) he hw hdivE hdivV]
      omega

lemma length_encodeVarint32 (n : Nat) (hn : n < 2 ^ 32) :
    (encodeVarint32 n).length = varintLength n := by
  unfold encodeVarint32 varintLength
  exact length_encodeVarint32Aux 5 10 n (by omega) (by omega)
    (by norm_num; omega) (by norm_num; omega)

lemma varintLength_pos (n : Nat) : 1 ≤ varintLength n := by
  rw [varintLength, varintLengthAux]
  split <;> omega

lemma length_encodeFixed64 (n : Nat) : (encodeFixed64 n).length = 8 := rfl

lemma decodeFixed64_encode (n : Nat) (hn : n < 2 ^ 64) (rest : List Nat) :
    decodeFixed64 (encodeFixed64 n ++ rest) = n := by
  simp only [encodeFixed64, List.cons_append, decodeFixed64]
  omega

/-! ### Tag arithmetic -/

lemma two_pow_mul_lor (k m c : Nat) (hc : c < 2 ^ k) :
    (2 ^ k * m) ||| c = 2 ^ k * m + c := by
  apply Nat.eq_of_testBit_eq
  intro i
  rw [Nat.testBit_lor, Nat.testBit_mul_pow_two_add m hc i]
  have h0 : (2 ^ k * m).testBit i = if i < k then false else m.testBit (i - k) := by
    have := Nat.testBit_mul_pow_two_add m (show 0 < 2 ^ k by positivity) i
    simpa using this
  rw [h0]
  split
  · simp
  · next h =>
    have hc' : c.testBit i = false := by
      apply Nat.testBit_lt_two_pow
      calc c < 2 ^ k := hc
        _ ≤ 2 ^ i := Nat.pow_le_pow_right (by omega) (by omega)
    simp [hc']

lemma code_lt (t : ValueType) : t.code < 2 ^ 8 := by
  cases t <;> simp [ValueType.code]

lemma tagOf_eq (s : Nat) (t : ValueType) :
    tagOf s t = 2 ^ 8 * (s % 2 ^ 56) + t.code := by
  unfold tagOf
  rw [Nat.shiftLeft_eq]
  have hmod : s * 2 ^ 8 % 2 ^ 64 = 2 ^ 8 * (s % 2 ^ 56) := by
    rw [mul_comm, show (2 : Nat) ^ 64 = 2 ^ 8 * 2 ^ 56 by norm_num]
    exact Nat.mul_mod_mul_left _ _ _
  rw [hmod, two_pow_mul_lor 8 _ _ (code_lt t)]

lemma tagOf_lt (s : Nat) (t : ValueType) : tagOf s t < 2 ^ 64 := by
  rw [tagOf_eq]
  have := code_lt t
  have : s % 2 ^ 56 < 2 ^ 56 := Nat.mod_lt _ (by norm_num)
  omega

lemma lookupTag_eq (S : Nat) :
    ((S <<< 8) % 2 ^ 64) ||| 255 = 2 ^ 8 * (S % 2 ^ 56) + 255 := by
  rw [Nat.shiftLeft_eq]
  have hmod : S * 2 ^ 8 % 2 ^ 64 = 2 ^ 8 * (S % 2 ^ 56) := by
    rw [mul_comm, show (2 : Nat) ^ 64 = 2 ^ 8 * 2 ^ 56 by norm_num]
    exact Nat.mul_mod_mul_left _ _ _
  rw [hmod, two_pow_mul_lor 8 _ 255 (by norm_num)]

lemma lookupTag_lt (S : Nat) : 2 ^ 8 * (S % 2 ^ 56) + 255 < 2 ^ 64 := by
  have : S % 2 ^ 56 < 2 ^ 56 := Nat.mod_lt _ (by norm_num)
  omega

lemma and255_eq_mod (x : Nat) : x &&& 255 = x % 2 ^ 8 := by
  have := Nat.and_pow_two_sub_one_eq_mod x 8
  norm_num at this ⊢
  exact this

lemma tagOf_and255 (s : Nat) (t : ValueType) : tagOf s t &&& 255 = t.code := by
  rw [and255_eq_mod, tagOf_eq]
  have := code_lt t
  omega

lemma tagOf_shiftRight (s : Nat) (t : ValueType) (hs : s < 2 ^ 56) :
    tagOf s t >>> 8 = s := by
  rw [Nat.shiftRight_eq_div_pow, tagOf_eq, Nat.mod_eq_of_lt hs]
  have := code_lt t
  omega

/-! ### Entry decoding lemmas -/

lemma getVarint32_encodeEntry (s : Nat) (t : ValueType) (k v : List Nat)
    (hk : k.length + 8 < 2 ^ 32) :
    getVarint32 (encodeEntry s t k v) =
      some (k.length + 8,
        k ++ (encodeFixed64 (tagOf s t) ++ (encodeVarint32 (v.length % 2 ^ 32) ++ v))) := by
  unfold encodeEntry
  rw [Nat.mod_eq_of_lt hk]
  simp only [List.append_assoc]
  rw [getVarint32_encode _ hk]

lemma glps_encodeEntry (s : Nat) (t : ValueType) (k v : List Nat)
    (hk : k.length + 8 < 2 ^ 32) :
    getLengthPrefixedSlice (encodeEntry s t k v) = k ++ encodeFixed64 (tagOf s t) := by
  unfold getLengthPrefixedSlice
  rw [getVarint32_encodeEntry s t k v hk]
  rw [show k ++ (encodeFixed64 (tagOf s t) ++ (encodeVarint32 (v.length % 2 ^ 32) ++ v)) =
        (k ++ encodeFixed64 (tagOf s t)) ++ (encodeVarint32 (v.length % 2 ^ 32) ++ v) by
      simp [List.append_assoc]]
  exact List.take_left' (by simp [length_encodeFixed64])

lemma glps_lookupKeyBytes (k : List Nat) (S : Nat) (hk : k.length + 8 < 2 ^ 32) :
    getLengthPrefixedSlice (lookupKeyBytes k S) =
      k ++ encodeFixed64 (2 ^ 8 * (S % 2 ^ 56) + 255) := by
  unfold getLengthPrefixedSlice lookupKeyBytes
  rw [Nat.mod_eq_of_lt hk, lookupTag_eq, List.append_assoc,
      getVarint32_encode _ hk]
  exact List.take_of_length_le (by simp [length_encodeFixed64])

lemma extractUserKey_ik (k tl : List Nat) (h : tl.length = 8) :
    extractUserKey (k ++ tl) = k := by
  unfold extractUserKey
  rw [List.length_append, h]
  exact List.take_left' (by omega)

lemma extractTag_ik (k : List Nat) (tag : Nat) (h : tag < 2 ^ 64) :
    extractTag (k ++ encodeFixed64 tag) = tag := by
  unfold extractTag
  rw [List.length_append, length_encodeFixed64]
  rw [show k.length + 8 - 8 = k.length by omega,
      List.drop_left' rfl]
  rw [show encodeFixed64 tag = encodeFixed64 tag ++ [] from (List.append_nil _).symm]
  exact decodeFixed64_encode tag h []

/-! ### Comparator laws -/

lemma CmpLaws.gt_iff {c : List Nat → List Nat → Int} (L : CmpLaws c) (a b : List Nat) :
    0 < c a b ↔ c b a < 0 := (L.lt_iff b a).symm

lemma CmpLaws.eq_iff {c : List Nat → List Nat → Int} (L : CmpLaws c) (a b : List Nat) :
    c a b = 0 ↔ c b a = 0 := by
  constructor <;> intro h
  · rcases lt_trichotomy (c b a) 0 with h' | h' | h'
    · have := (L.lt_iff b a).mp h'
      omega
    · exact h'
    · have := (L.lt_iff a b).mpr h'
      omega
  · rcases lt_trichotomy (c a b) 0 with h' | h' | h'
    · have := (L.lt_iff a b).mp h'
      omega
    · exact h'
    · have := (L.lt_iff b a).mpr h'
      omega

lemma CmpLaws.eq_trans {c : List Nat → List Nat → Int} (L : CmpLaws c)
    {a b d : List Nat} (h1 : c a b = 0) (h2 : c b d = 0) : c a d = 0 := by
  have had : c a d ≤ 0 := L.le_trans a b d (by omega) (by omega)
  have hda : c d a ≤ 0 :=
    L.le_trans d b a (le_of_eq ((L.eq_iff b d).mp h2)) (le_of_eq ((L.eq_iff a b).mp h1))
  rcases lt_or_eq_of_le had with h' | h'
  · have := (L.lt_iff a d).mp h'
    omega
  · exact h'

lemma CmpLaws.lt_of_lt_of_le {c : List Nat → List Nat → Int} (L : CmpLaws c)
    {a b d : List Nat} (h1 : c a b < 0) (h2 : c b d ≤ 0) : c a d < 0 := by
  have had : c a d ≤ 0 := L.le_trans a b d (by omega) h2
  rcases lt_or_eq_of_le had with h' | h'
  · exact h'
  · exfalso
    have hda : c d a = 0 := (L.eq_iff a d).mp h'
    have hdb : c d b ≤ 0 := L.le_trans d a b (by omega) (by omega)
    have hbd : c b d = 0 := by
      rcases lt_or_eq_of_le h2 with h'' | h''
      · have := (L.lt_iff b d).mp h''
        omega
      · exact h''
    have hab : c a b = 0 := L.eq_trans h' ((L.eq_iff b d).mp hbd)
    omega

lemma CmpLaws.lt_of_le_of_lt {c : List Nat → List Nat → Int} (L : CmpLaws c)
    {a b d : List Nat} (h1 : c a b ≤ 0) (h2 : c b d < 0) : c a d < 0 := by
  have had : c a d ≤ 0 := L.le_trans a b d h1 (by omega)
  rcases lt_or_eq_of_le had with h' | h'
  · exact h'
  · exfalso
    have hda : c d a = 0 := (L.eq_iff a d).mp h'
    have hab : c a b = 0 := by
      rcases lt_or_eq_of_le h1 with h'' | h''
      · exfalso
        have hbd : c b a ≤ 0 := by
          have := (L.lt_iff a b).mp h''
          exact L.le_trans b d a (by omega) (by omega)
        have := (L.lt_iff a b).mp h''
        omega
      · exact h''
    have : c b d = 0 := L.eq_trans ((L.eq_iff a b).mp hab) h'
    omega

lemma CmpLaws.comap {c : List Nat → List Nat → Int} (L : CmpLaws c)
    (f : List Nat → List Nat) : CmpLaws (fun a b => c (f a) (f b)) :=
  ⟨fun a b => L.lt_iff (f a) (f b), fun a b d => L.le_trans (f a) (f b) (f d)⟩

lemma internalCompare_lt_iff (c : List Nat → List Nat → Int) (a b : List Nat) :
    internalCompare c a b < 0 ↔
      (c (extractUserKey a) (extractUserKey b) < 0 ∨
       (c (extractUserKey a) (extractUserKey b) = 0 ∧ extractTag b < extractTag a)) := by
  unfold internalCompare
  split_ifs <;> simp_all <;> omega

lemma internalCompare_le_iff (c : List Nat → List Nat → Int) (a b : List Nat) :
    internalCompare c a b ≤ 0 ↔
      (c (extractUserKey a) (extractUserKey b) < 0 ∨
       (c (extractUserKey a) (extractUserKey b) = 0 ∧ extractTag b ≤ extractTag a)) := by
  unfold internalCompare
  split_ifs <;> simp_all <;> omega

lemma internalCompare_pos_iff (c : List Nat → List Nat → Int) (a b : List Nat) :
    0 < internalCompare c a b ↔
      (0 < c (extractUserKey a) (extractUserKey b) ∨
       (c (extractUserKey a) (extractUserKey b) = 0 ∧ extractTag a < extractTag b)) := by
  unfold internalCompare
  split_ifs <;> simp_all <;> omega

lemma internal_laws {c : List Nat → List Nat → Int} (L : CmpLaws c) :
    CmpLaws (internalCompare c) := by
  constructor
  · intro a b
    rw [internalCompare_lt_iff, internalCompare_pos_iff]
    constructor
    · rintro (h | ⟨h0, ht⟩)
      · exact Or.inl ((L.lt_iff _ _).mp h)
      · exact Or.inr ⟨(L.eq_iff _ _).mp h0, ht⟩
    · rintro (h | ⟨h0, ht⟩)
      · exact Or.inl ((L.lt_iff _ _).mpr h)
      · exact Or.inr ⟨(L.eq_iff _ _).mpr h0, ht⟩
  · intro a b d h1 h2
    rw [internalCompare_le_iff] at h1 h2 ⊢
    rcases h1 with h1 | ⟨h1, t1⟩ <;> rcases h2 with h2 | ⟨h2, t2⟩
    · exact Or.inl (L.lt_of_lt_of_le h1 (by omega))
    · exact Or.inl (L.lt_of_lt_of_le h1 (by omega))
    · exact Or.inl (L.lt_of_le_of_lt (by omega) h2)
    · exact Or.inr ⟨L.eq_trans h1 h2, by omega⟩

lemma keyComparatorFn_laws {c : List Nat → List Nat → Int} (L : CmpLaws c) :
    CmpLaws (keyComparatorFn c) :=
  (internal_laws L).comap getLengthPrefixedSlice

/-! ### The bytewise comparator satisfies the laws -/

lemma bytewise_lt_iff (a b : List Nat) :
    bytewiseCompare a b < 0 ↔ 0 < bytewiseCompare b a := by
  induction a generalizing b with
  | nil => cases b <;> simp [bytewiseCompare]
  | cons x xs ih =>
    cases b with
    | nil => simp [bytewiseCompare]
    | cons y ys =>
      simp only [bytewiseCompare]
      rcases Nat.lt_trichotomy x y with h | h | h
      · simp [h, Nat.not_lt.mpr (Nat.le_of_lt h), Nat.lt_irrefl]
      · subst h
        simp [Nat.lt_irrefl]
        exact ih ys
      · simp [h, Nat.not_lt.mpr (Nat.le_of_lt h), Nat.lt_irrefl]

lemma bytewise_le_trans (a b d : List Nat) :
    bytewiseCompare a b ≤ 0 → bytewiseCompare b d ≤ 0 → bytewiseCompare a d ≤ 0 := by
  induction a generalizing b d with
  | nil =>
    intro _ _
    cases d <;> simp [bytewiseCompare]
  | cons x xs ih =>
    intro h1 h2
    cases b with
    | nil => simp [bytewiseCompare] at h1
    | cons y ys =>
      cases d with
      | nil => simp [bytewiseCompare] at h2
      | cons z zs =>
        simp only [bytewiseCompare] at h1 h2 ⊢
        rcases Nat.lt_trichotomy x y with hxy | hxy | hxy <;>
          rcases Nat.lt_trichotomy y z with hyz | hyz | hyz <;>
            simp_all [Nat.lt_irrefl] <;>
              first
                | omega
                | (split_ifs <;> omega)
                | (have hxz : x < z := by omega
                   simp [hxz, Nat.not_lt.mpr (Nat.le_of_lt hxz)])
                | (subst hxy; subst hyz; exact ih ys zs h1 h2)

lemma bytewise_laws : CmpLaws bytewiseCompare :=
  ⟨bytewise_lt_iff, bytewise_le_trans⟩

/-! ### Table lemmas -/

lemma mem_tableInsert (c : List Nat → List Nat → Int) (e y : List Nat)
    (l : List (List Nat)) :
    y ∈ tableInsert c e l ↔ y = e ∨ y ∈ l := by
  induction l with
  | nil => simp [tableInsert]
  | cons x xs ih =>
    rw [tableInsert]
    split_ifs with h
    · simp only [List.mem_cons, ih]
      tauto
    · simp only [List.mem_cons]

lemma tableInsert_perm (c : List Nat → List Nat → Int) (e : List Nat)
    (l : List (List Nat)) : (tableInsert c e l).Perm (e :: l) := by
  induction l with
  | nil => rw [tableInsert]
  | cons x xs ih =>
    rw [tableInsert]
    split_ifs with h
    · exact (List.Perm.cons x ih).trans (List.Perm.swap e x xs)
    · exact List.Perm.refl _

lemma pairwise_tableInsert {c : List Nat → List Nat → Int}
    (L : CmpLaws (keyComparatorFn c)) (e : List Nat) {l : List (List Nat)}
    (hl : l.Pairwise (fun a b => keyComparatorFn c a b ≤ 0)) :
    (tableInsert c e l).Pairwise (fun a b => keyComparatorFn c a b ≤ 0) := by
  induction l with
  | nil => simp [tableInsert]
  | cons x xs ih =>
    rw [List.pairwise_cons] at hl
    obtain ⟨hx, hxs⟩ := hl
    rw [tableInsert]
    split_ifs with h
    · rw [List.pairwise_cons]
      refine ⟨?_, ih hxs⟩
      intro y hy
      rcases (mem_tableInsert c e y xs).mp hy with rfl | hy'
      · omega
      · exact hx y hy'
    · have hex : keyComparatorFn c e x ≤ 0 := by
        by_contra hpos
        exact h ((L.lt_iff x e).mpr (by omega))
      rw [List.pairwise_cons]
      constructor
      · intro y hy
        rcases List.mem_cons.mp hy with rfl | hy'
        · exact hex
        · exact L.le_trans e x y hex (hx y hy')
      · rw [List.pairwise_cons]
        exact ⟨hx, hxs⟩

lemma runAdds_entries_perm (c : List Nat → List Nat → Int) (ops : List AddOp)
    (m : MemTableM) :
    (runAdds c ops m).entries.Perm (ops.map AddOp.entry ++ m.entries) := by
  induction ops generalizing m with
  | nil => simp [runAdds]
  | cons op ops ih =>
    rw [runAdds, List.foldl_cons]
    have h1 := ih (memAdd c op m)
    rw [runAdds] at h1
    refine h1.trans ?_
    simp only [memAdd, List.map_cons, List.cons_append]
    have h2 : (ops.map AddOp.entry ++ tableInsert c op.entry m.entries).Perm
        (ops.map AddOp.entry ++ (op.entry :: m.entries)) :=
      List.Perm.append_left _ (tableInsert_perm c _ _)
    exact h2.trans List.perm_middle

lemma mkMemTable_entries_perm (c : List Nat → List Nat → Int) (ops : List AddOp) :
    (mkMemTable c ops).entries.Perm (ops.map AddOp.entry) := by
  have := runAdds_entries_perm c ops emptyMT
  simpa [mkMemTable, emptyMT] using this

lemma runAdds_pairwise {c : List Nat → List Nat → Int} (L : CmpLaws c)
    (ops : List AddOp) (m : MemTableM)
    (hm : m.entries.Pairwise (fun a b => keyComparatorFn c a b ≤ 0)) :
    (runAdds c ops m).entries.Pairwise (fun a b => keyComparatorFn c a b ≤ 0) := by
  induction ops generalizing m with
  | nil => simpa [runAdds]
  | cons op ops ih =>
    rw [runAdds, List.foldl_cons]
    have h1 : (memAdd c op m).entries.Pairwise (fun a b => keyComparatorFn c a b ≤ 0) := by
      simp only [memAdd]
      exact pairwise_tableInsert (keyComparatorFn_laws L) _ hm
    exact ih (memAdd c op m) h1

lemma mkMemTable_pairwise {c : List Nat → List Nat → Int} (L : CmpLaws c)
    (ops : List AddOp) :
    (mkMemTable c ops).entries.Pairwise (fun a b => keyComparatorFn c a b ≤ 0) :=
  runAdds_pairwise L ops emptyMT (by simp [emptyMT])

lemma seekGE_none (c : List Nat → List Nat → Int) (T : List Nat)
    (l : List (List Nat)) (h : seekGE c T l = none) :
    ∀ x ∈ l, keyComparatorFn c x T < 0 := by
  induction l with
  | nil => simp
  | cons x xs ih =>
    rw [seekGE] at h
    split_ifs at h with hx
    · intro y hy
      rcases List.mem_cons.mp hy with rfl | hy'
      · exact hx
      · exact ih h y hy'

lemma seekGE_some (c : List Nat → List Nat → Int) (T : List Nat)
    (l : List (List Nat)) (y : List Nat) (h : seekGE c T l = some y) :
    ¬ keyComparatorFn c y T < 0 ∧
      ∃ l1 l2, l = l1 ++ y :: l2 ∧ ∀ x ∈ l1, keyComparatorFn c x T < 0 := by
  induction l with
  | nil => simp [seekGE] at h
  | cons x xs ih =>
    rw [seekGE] at h
    split_ifs at h with hx
    · obtain ⟨hy, l1, l2, heq, hl1⟩ := ih h
      refine ⟨hy, x :: l1, l2, by rw [heq, List.cons_append], ?_⟩
      intro z hz
      rcases List.mem_cons.mp hz with rfl | hz'
      · exact hx
      · exact hl1 z hz'
    · obtain rfl : x = y := Option.some.inj h
      exact ⟨hx, [], xs, rfl, by simp⟩

/-! ### Comparing encoded entries with the lookup target and with each other -/

lemma keyCmp_entry_lookup (c : List Nat → List Nat → Int) (s : Nat) (t : ValueType)
    (k' v' k : List Nat) (S : Nat) (hk' : k'.length + 8 < 2 ^ 32)
    (hk : k.length + 8 < 2 ^ 32) (hs : s < 2 ^ 56) (hS : S < 2 ^ 56) :
    (keyComparatorFn c (encodeEntry s t k' v') (lookupKeyBytes k S) < 0 ↔
      (c k' k < 0 ∨ (c k' k = 0 ∧ S < s))) := by
  unfold keyComparatorFn
  rw [glps_encodeEntry _ _ _ _ hk', glps_lookupKeyBytes _ _ hk,
      internalCompare_lt_iff,
      extractUserKey_ik _ _ (length_encodeFixed64 _),
      extractUserKey_ik _ _ (length_encodeFixed64 _),
      extractTag_ik _ _ (tagOf_lt s t),
      extractTag_ik _ _ (lookupTag_lt S),
      tagOf_eq, Nat.mod_eq_of_lt hs, Nat.mod_eq_of_lt hS]
  have hc := code_lt t
  constructor
  · rintro (h | ⟨h0, ht⟩)
    · exact Or.inl h
    · exact Or.inr ⟨h0, by omega⟩
  · rintro (h | ⟨h0, hlt⟩)
    · exact Or.inl h
    · exact Or.inr ⟨h0, by omega⟩

lemma keyCmp_entry_entry (c : List Nat → List Nat → Int)
    (s1 s2 : Nat) (t1 t2 : ValueType) (k1 v1 k2 v2 : List Nat)
    (hk1 : k1.length + 8 < 2 ^ 32) (hk2 : k2.length + 8 < 2 ^ 32)
    (hs1 : s1 < 2 ^ 56) (hs2 : s2 < 2 ^ 56) :
    (keyComparatorFn c (encodeEntry s1 t1 k1 v1) (encodeEntry s2 t2 k2 v2) ≤ 0 ↔
      (c k1 k2 < 0 ∨
       (c k1 k2 = 0 ∧ 2 ^ 8 * s2 + t2.code ≤ 2 ^ 8 * s1 + t1.code))) := by
  unfold keyComparatorFn
  rw [glps_encodeEntry _ _ _ _ hk1, glps_encodeEntry _ _ _ _ hk2,
      internalCompare_le_iff,
      extractUserKey_ik _ _ (length_encodeFixed64 _),
      extractUserKey_ik _ _ (length_encodeFixed64 _),
      extractTag_ik _ _ (tagOf_lt s1 t1),
      extractTag_ik _ _ (tagOf_lt s2 t2),
      tagOf_eq, tagOf_eq, Nat.mod_eq_of_lt hs1, Nat.mod_eq_of_lt hs2]

/-- Decoded behaviour of `Get` when the index seek lands on a well-formed
entry: compare the entry's user key with the lookup key, then branch on the
entry's operation type. -/
lemma memGet_seek_some (c : List Nat → List Nat → Int) (m : MemTableM)
    (k : List Nat) (S : Nat) (v0 : List Nat) (s0 : Status)
    (s : Nat) (t : ValueType) (ku vu : List Nat)
    (hku : ku.length + 8 < 2 ^ 32) (hvu : vu.length < 2 ^ 32)
    (hseek : seekGE c (lookupKeyBytes k S) m.entries = some (encodeEntry s t ku vu)) :
    memGet c m k S v0 s0 =
      if c ku k = 0 then getOutcome t vu v0 s0
      else (false, v0, s0) := by
  unfold memGet
  rw [hseek]
  dsimp only
  rw [getVarint32_encodeEntry s t ku vu hku]
  dsimp only
  have htake : (ku ++ (encodeFixed64 (tagOf s t) ++
      (encodeVarint32 (vu.length % 2 ^ 32) ++ vu))).take (ku.length + 8 - 8) = ku := by
    rw [show ku.length + 8 - 8 = ku.length by omega]
    exact List.take_left' rfl
  have hdrop : (ku ++ (encodeFixed64 (tagOf s t) ++
      (encodeVarint32 (vu.length % 2 ^ 32) ++ vu))).drop (ku.length + 8 - 8) =
      encodeFixed64 (tagOf s t) ++ (encodeVarint32 (vu.length % 2 ^ 32) ++ vu) := by
    rw [show ku.length + 8 - 8 = ku.length by omega]
    exact List.drop_left' rfl
  have hdropAll : (ku ++ (encodeFixed64 (tagOf s t) ++
      (encodeVarint32 (vu.length % 2 ^ 32) ++ vu))).drop (ku.length + 8) =
      encodeVarint32 (vu.length % 2 ^ 32) ++ vu := by
    rw [show ku ++ (encodeFixed64 (tagOf s t) ++
          (encodeVarint32 (vu.length % 2 ^ 32) ++ vu)) =
        (ku ++ encodeFixed64 (tagOf s t)) ++
          (encodeVarint32 (vu.length % 2 ^ 32) ++ vu) by simp [List.append_assoc]]
    exact List.drop_left' (by simp [length_encodeFixed64])
  have hdecode : decodeFixed64 (encodeFixed64 (tagOf s t) ++
      (encodeVarint32 (vu.length % 2 ^ 32) ++ vu)) = tagOf s t :=
    decodeFixed64_encode _ (tagOf_lt s t) _
  have hval : getLengthPrefixedSlice (encodeVarint32 (vu.length % 2 ^ 32) ++ vu) = vu := by
    unfold getLengthPrefixedSlice
    rw [getVarint32_encode _ (Nat.mod_lt _ (by norm_num)) vu, Nat.mod_eq_of_lt hvu]
    exact List.take_of_length_le (le_refl _)
  simp only [htake, hdrop, hdropAll, hdecode, hval]
  by_cases h0 : c ku k = 0
  · cases t
    · rw [tagOf_and255]
      simp [h0, ValueType.code, getOutcome]
    · rw [tagOf_and255]
      simp [h0, ValueType.code, getOutcome]
  · simp [h0]

/-! ### Reference lifecycle lemmas -/

lemma foldl_stepRef_destroyed (l : List RefOp) :
    l.foldl stepRef .destroyed = .destroyed := by
  induction l with
  | nil => rfl
  | cons x xs ih => simpa [stepRef] using ih

lemma foldl_stepRef_refs (n : Nat) (r : Int) :
    (List.replicate n RefOp.ref).foldl stepRef (.alive r) = .alive (r + n) := by
  induction n generalizing r with
  | zero => simp
  | succ m ih =>
    rw [List.replicate_succ, List.foldl_cons]
    show (List.replicate m RefOp.ref).foldl stepRef (.alive (r + 1)) = _
    rw [ih (r + 1)]
    congr 1
    omega

lemma foldl_stepRef_unrefs (k : Nat) (r : Int) (hr : 0 < r) :
    (List.replicate k RefOp.unref).foldl stepRef (.alive r) =
      if (k : Int) < r then .alive (r - k) else .destroyed := by
  induction k generalizing r with
  | zero =>
    simp only [List.replicate_zero, List.foldl_nil]
    rw [if_pos (by omega)]
    congr 1
    omega
  | succ m ih =>
    rw [List.replicate_succ, List.foldl_cons]
    show (List.replicate m RefOp.unref).foldl stepRef (stepRef (.alive r) .unref) = _
    rw [stepRef]
    split_ifs with h1 h2 h2
    · rw [foldl_stepRef_destroyed]
      omega
    · rw [foldl_stepRef_destroyed]
    · rw [ih (r - 1) (by omega), if_pos (by omega)]
      congr 1
      omega
    · rw [ih (r - 1) (by omega), if_neg (by omega)]

/-! ### Memory usage lemmas -/

lemma addEncodedLen_ge (k v : List Nat) : 9 ≤ addEncodedLen k v := by
  unfold addEncodedLen
  have h1 := varintLength_pos (k.length + 8)
  have h2 := varintLength_pos v.length
  omega

lemma runAdds_usage_mono (c : List Nat → List Nat → Int) (ops : List AddOp)
    (m : MemTableM) : m.usage ≤ (runAdds c ops m).usage := by
  induction ops generalizing m with
  | nil => simp [runAdds]
  | cons op ops ih =>
    rw [runAdds, List.foldl_cons]
    have h1 : m.usage ≤ (memAdd c op m).usage := by
      simp only [memAdd]
      omega
    exact le_trans h1 (ih (memAdd c op m))

/-! ### Traversal lemmas -/

lemma bwdTraverse_invalid (fuel : Nat) (it : MTIter) (h : ¬ iterValid it) :
    bwdTraverse fuel it = [] := by
  cases fuel with
  | zero => rfl
  | succ f => rw [bwdTraverse, if_neg h]

lemma fwdTraverse_drop (l : List (List Nat)) :
    ∀ (fuel p : Nat), l.length - p ≤ fuel →
      fwdTraverse fuel ⟨l, (p : Int)⟩ = (l.drop p).map entryKV := by
  intro fuel
  induction fuel with
  | zero =>
    intro p hp
    rw [fwdTraverse, List.drop_eq_nil_of_le (by omega), List.map_nil]
  | succ f ih =>
    intro p hp
    rw [fwdTraverse]
    by_cases hv : p < l.length
    · rw [if_pos (by simp only [iterValid]; omega)]
      have hnext : iterNext ⟨l, (p : Int)⟩ = ⟨l, ((p + 1 : Nat) : Int)⟩ := by
        simp [iterNext]
      rw [hnext, ih (p + 1) (by omega)]
      rw [List.drop_eq_getElem_cons hv, List.map_cons]
      congr 1
      simp [iterEntry, List.getElem?_eq_getElem hv]
    · rw [if_neg (by simp only [iterValid]; omega), List.drop_eq_nil_of_le (by omega),
        List.map_nil]

lemma bwdTraverse_take (l : List (List Nat)) :
    ∀ (p fuel : Nat), p < l.length → p + 1 ≤ fuel →
      bwdTraverse fuel ⟨l, (p : Int)⟩ = ((l.take (p + 1)).map entryKV).reverse := by
  intro p
  induction p with
  | zero =>
    intro fuel h1 h2
    obtain ⟨f, rfl⟩ : ∃ f, fuel = f + 1 := ⟨fuel - 1, by omega⟩
    rw [bwdTraverse, if_pos (by simp only [iterValid]; omega)]
    have hprev : iterPrev ⟨l, ((0 : Nat) : Int)⟩ = ⟨l, (-1 : Int)⟩ := by
      simp [iterPrev]
    rw [hprev, bwdTraverse_invalid f _ (by simp [iterValid])]
    rw [List.take_succ, List.take_zero, List.getElem?_eq_getElem h1]
    simp [iterEntry, List.getElem?_eq_getElem h1]
  | succ q ih =>
    intro fuel h1 h2
    obtain ⟨f, rfl⟩ : ∃ f, fuel = f + 1 := ⟨fuel - 1, by omega⟩
    rw [bwdTraverse, if_pos (by simp only [iterValid]; omega)]
    have hprev : iterPrev ⟨l, ((q + 1 : Nat) : Int)⟩ = ⟨l, ((q : Nat) : Int)⟩ := by
      simp [iterPrev]
    rw [hprev, ih f (by omega) (by omega)]
    conv_rhs => rw [List.take_succ]
    rw [List.getElem?_eq_getElem h1]
    simp only [List.map_append, List.reverse_append]
    simp [iterEntry, List.getElem?_eq_getElem h1]

lemma forwardTraversal_eq (l : List (List Nat)) :
    forwardTraversal l = l.map entryKV := by
  unfold forwardTraversal iterSeekToFirst
  have := fwdTraverse_drop l l.length 0 (by omega)
  simpa using this

lemma backwardTraversal_eq (l : List (List Nat)) :
    backwardTraversal l = (l.map entryKV).reverse := by
  unfold backwardTraversal iterSeekToLast
  cases l with
  | nil => rfl
  | cons x xs =>
    have hlen : 0 < (x :: xs).length := by simp
    have hcast : ((((x :: xs).length : Nat) : Int) - 1) =
        (((x :: xs).length - 1 : Nat) : Int) := by omega
    rw [show (⟨x :: xs, (((x :: xs).length : Nat) : Int) - 1⟩ : MTIter) =
        ⟨x :: xs, (((x :: xs).length - 1 : Nat) : Int)⟩ by rw [hcast]]
    rw [bwdTraverse_take (x :: xs) ((x :: xs).length - 1) (x :: xs).length
      (by omega) (by omega)]
    congr 2
    rw [show (x :: xs).length - 1 + 1 = (x :: xs).length by omega]
    exact List.take_length _

/-! ### Decoding round trip and accessors -/

lemma decodeEntry_encodeEntry (s : Nat) (t : ValueType) (k v : List Nat)
    (hs : s < 2 ^ 56) (hk : k.length + 8 < 2 ^ 32) (hv : v.length < 2 ^ 32) :
    decodeEntry (encodeEntry s t k v) = some (k, s, t.code, v) := by
  unfold decodeEntry
  rw [getVarint32_encodeEntry s t k v hk]
  dsimp only
  have htake : (k ++ (encodeFixed64 (tagOf s t) ++
      (encodeVarint32 (v.length % 2 ^ 32) ++ v))).take (k.length + 8) =
      k ++ encodeFixed64 (tagOf s t) := by
    rw [show k ++ (encodeFixed64 (tagOf s t) ++
          (encodeVarint32 (v.length % 2 ^ 32) ++ v)) =
        (k ++ encodeFixed64 (tagOf s t)) ++
          (encodeVarint32 (v.length % 2 ^ 32) ++ v) by simp [List.append_assoc]]
    exact List.take_left' (by simp [length_encodeFixed64])
  have hdropAll : (k ++ (encodeFixed64 (tagOf s t) ++
      (encodeVarint32 (v.length % 2 ^ 32) ++ v))).drop (k.length + 8) =
      encodeVarint32 (v.length % 2 ^ 32) ++ v := by
    rw [show k ++ (encodeFixed64 (tagOf s t) ++
          (encodeVarint32 (v.length % 2 ^ 32) ++ v)) =
        (k ++ encodeFixed64 (tagOf s t)) ++
          (encodeVarint32 (v.length % 2 ^ 32) ++ v) by simp [List.append_assoc]]
    exact List.drop_left' (by simp [length_encodeFixed64])
  rw [htake, hdropAll, getVarint32_encode _ (Nat.mod_lt _ (by norm_num)) v]
  dsimp only
  rw [show k.length + 8 - 8 = k.length by omega,
      List.take_left' rfl, List.drop_left' rfl,
      show encodeFixed64 (tagOf s t) = encodeFixed64 (tagOf s t) ++ []
        from (List.append_nil _).symm,
      decodeFixed64_encode _ (tagOf_lt s t) [],
      tagOf_shiftRight s t hs, tagOf_and255, Nat.mod_eq_of_lt hv,
      List.take_of_length_le (le_refl _)]

lemma glps_encodeKey (k : List Nat) (hk : k.length < 2 ^ 32) :
    getLengthPrefixedSlice (encodeKey k) = k := by
  unfold getLengthPrefixedSlice encodeKey
  rw [getVarint32_encode _ (Nat.mod_lt _ (by norm_num)) k, Nat.mod_eq_of_lt hk]
  exact List.take_of_length_le (le_refl _)

lemma entryKV_encode (s : Nat) (t : ValueType) (k v : List Nat)
    (hk : k.length + 8 < 2 ^ 32) (hv : v.length < 2 ^ 32) :
    entryKV (encodeEntry s t k v) = (k ++ encodeFixed64 (tagOf s t), v) := by
  unfold entryKV
  rw [getVarint32_encodeEntry s t k v hk]
  dsimp only
  have htake : (k ++ (encodeFixed64 (tagOf s t) ++
      (encodeVarint32 (v.length % 2 ^ 32) ++ v))).take (k.length + 8) =
      k ++ encodeFixed64 (tagOf s t) := by
    rw [show k ++ (encodeFixed64 (tagOf s t) ++
          (encodeVarint32 (v.length % 2 ^ 32) ++ v)) =
        (k ++ encodeFixed64 (tagOf s t)) ++
          (encodeVarint32 (v.length % 2 ^ 32) ++ v) by simp [List.append_assoc]]
    exact List.take_left' (by simp [length_encodeFixed64])
  have hdropAll : (k ++ (encodeFixed64 (tagOf s t) ++
      (encodeVarint32 (v.length % 2 ^ 32) ++ v))).drop (k.length + 8) =
      encodeVarint32 (v.length % 2 ^ 32) ++ v := by
    rw [show k ++ (encodeFixed64 (tagOf s t) ++
          (encodeVarint32 (v.length % 2 ^ 32) ++ v)) =
        (k ++ encodeFixed64 (tagOf s t)) ++
          (encodeVarint32 (v.length % 2 ^ 32) ++ v) by simp [List.append_assoc]]
    exact List.drop_left' (by simp [length_encodeFixed64])
  rw [htake, hdropAll]
  unfold getLengthPrefixedSlice
  rw [getVarint32_encode _ (Nat.mod_lt _ (by norm_num)) v, Nat.mod_eq_of_lt hv]
  dsimp only
  rw [List.take_of_length_le (le_refl _)]

lemma seqOfIK_encode (s : Nat) (t : ValueType) (k : List Nat) (hs : s < 2 ^ 56) :
    seqOfIK (k ++ encodeFixed64 (tagOf s t)) = s := by
  unfold seqOfIK
  rw [extractTag_ik _ _ (tagOf_lt s t), tagOf_shiftRight s t hs]

lemma entrySeq_encode (s : Nat) (t : ValueType) (k v : List Nat)
    (hs : s < 2 ^ 56) (hk : k.length + 8 < 2 ^ 32) :
    entrySeq (encodeEntry s t k v) = s := by
  unfold entrySeq
  rw [glps_encodeEntry s t k v hk, seqOfIK_encode s t k hs]

/-! ### Claim theorems -/

/-- Claim C3: for every `Add(sequence, type, user_key, value)`, the bytes
written into the single arena allocation are exactly varint32 of
`len(user_key) + 8`, the user key bytes, the 8-byte little-endian tag
`(sequence << 8) | type`, varint32 of `len(value)`, and the value bytes;
the allocation size equals the sum of the five parts and is fully filled
(the byte string's length equals `encoded_len`, and the arena counter grows
by exactly `encoded_len`). -/
theorem C3_add_entry_layout (c : List Nat → List Nat → Int) (op : AddOp)
    (m : MemTableM) (hs : op.seq < 2 ^ 56) (hk : op.key.length + 8 < 2 ^ 32)
    (hv : op.value.length < 2 ^ 32) :
    op.entry =
      encodeVarint32 (op.key.length + 8) ++ op.key ++
      encodeFixed64 ((op.seq <<< 8) ||| op.ty.code) ++
      encodeVarint32 op.value.length ++ op.value ∧
    op.entry.length = addEncodedLen op.key op.value ∧
    (memAdd c op m).usage = m.usage + addEncodedLen op.key op.value ∧
    (memAdd c op m).entries = tableInsert c op.entry m.entries := by
  have htag : tagOf op.seq op.ty = (op.seq <<< 8) ||| op.ty.code := by
    unfold tagOf
    rw [Nat.shiftLeft_eq, Nat.mod_eq_of_lt (by omega : op.seq * 2 ^ 8 < 2 ^ 64)]
  refine ⟨?_, ?_, rfl, rfl⟩
  · unfold AddOp.entry encodeEntry
    rw [Nat.mod_eq_of_lt hk, Nat.mod_eq_of_lt hv, htag]
  · unfold AddOp.entry encodeEntry addEncodedLen
    simp only [List.length_append, length_encodeFixed64]
    rw [length_encodeVarint32 _ (by omega), length_encodeVarint32 _ (by omega),
        Nat.mod_eq_of_lt hk, Nat.mod_eq_of_lt hv]
    omega

/-- Claim C3 witness. -/
theorem C3_add_entry_layout_witness :
    (AddOp.entry ⟨3, .value, [1, 2], [5]⟩ =
      encodeVarint32 10 ++ [1, 2] ++ encodeFixed64 ((3 <<< 8) ||| 1) ++
      encodeVarint32 1 ++ [5] ∧
    (AddOp.entry ⟨3, .value, [1, 2], [5]⟩).length = addEncodedLen [1, 2] [5] ∧
    (memAdd bytewiseCompare ⟨3, .value, [1, 2], [5]⟩ emptyMT).usage =
      emptyMT.usage + addEncodedLen [1, 2] [5] ∧
    (memAdd bytewiseCompare ⟨3, .value, [1, 2], [5]⟩ emptyMT).entries =
      tableInsert bytewiseCompare (AddOp.entry ⟨3, .value, [1, 2], [5]⟩)
        emptyMT.entries) :=
  C3_add_entry_layout bytewiseCompare ⟨3, .value, [1, 2], [5]⟩ emptyMT
    (by decide) (by decide) (by decide)

/-- Claim C4: decoding the entry bytes produced by `Add` — the length-prefixed
internal key, the trailing 8-byte tag split as `tag >> 8` and `tag & 0xff`,
and the length-prefixed value — reproduces the original user key, sequence,
type code, and value, for any 56-bit sequence. -/
theorem C4_roundtrip_codec (s : Nat) (t : ValueType) (k v : List Nat)
    (hs : s < 2 ^ 56) (hk : k.length + 8 < 2 ^ 32) (hv : v.length < 2 ^ 32) :
    decodeEntry (encodeEntry s t k v) = some (k, s, t.code, v) :=
  decodeEntry_encodeEntry s t k v hs hk hv

/-- Claim C4 witness. -/
theorem C4_roundtrip_codec_witness :
    decodeEntry (encodeEntry 3 ValueType.value [1, 2] [5, 6]) =
      some ([1, 2], 3, 1, [5, 6]) :=
  C4_roundtrip_codec 3 ValueType.value [1, 2] [5, 6]
    (by decide) (by decide) (by decide)

/-- Claim C6: a new table has reference count zero; `Ref` increments by one;
`Unref` decrements by one and destroys exactly when the count reaches zero or
below; `Ref` never destroys; one `Ref` is undone by exactly the matching
`Unref`, and `n + 1` refs survive `n` unrefs but are destroyed by the
`(n + 1)`-st. -/
theorem C6_reference_lifecycle :
    runRefOps [] = LifeState.alive 0 ∧
    (∀ r : Int, stepRef (.alive r) .ref = .alive (r + 1)) ∧
    (∀ r : Int, stepRef (.alive r) .unref =
      if r - 1 ≤ 0 then .destroyed else .alive (r - 1)) ∧
    (∀ r : Int, stepRef (.alive r) .ref ≠ .destroyed) ∧
    (∀ n : Nat,
      runRefOps (List.replicate (n + 1) .ref ++ List.replicate n .unref) =
        .alive 1) ∧
    (∀ n : Nat,
      runRefOps (List.replicate (n + 1) .ref ++ List.replicate (n + 1) .unref) =
        .destroyed) := by
  refine ⟨rfl, fun r => rfl, fun r => rfl, fun r => by simp [stepRef], ?_, ?_⟩
  · intro n
    unfold runRefOps
    rw [List.foldl_append, foldl_stepRef_refs (n + 1) 0,
        show (0 : Int) + ((n + 1 : Nat) : Int) = (n : Int) + 1 by push_cast; ring,
        foldl_stepRef_unrefs n ((n : Int) + 1) (by omega), if_pos (by omega)]
    congr 1
    omega
  · intro n
    unfold runRefOps
    rw [List.foldl_append, foldl_stepRef_refs (n + 1) 0,
        show (0 : Int) + ((n + 1 : Nat) : Int) = (n : Int) + 1 by push_cast; ring,
        foldl_stepRef_unrefs (n + 1) ((n : Int) + 1) (by omega),
        if_neg (by push_cast; omega)]

/-- Claim C7: `ApproximateMemoryUsage` is non-decreasing across every sequence
of `Add` calls, and strictly increases after at least one `Add` (every `Add`
allocates at least the one varint byte plus the 8-byte tag). -/
theorem C7_monotonic_memory (c : List Nat → List Nat → Int) :
    (∀ (ops : List AddOp) (m : MemTableM),
      approximateMemoryUsage m ≤ approximateMemoryUsage (runAdds c ops m)) ∧
    (∀ (op : AddOp) (m : MemTableM),
      approximateMemoryUsage m < approximateMemoryUsage (memAdd c op m)) ∧
    (∀ (op : AddOp) (ops : List AddOp) (m : MemTableM),
      approximateMemoryUsage m <
        approximateMemoryUsage (runAdds c (op :: ops) m)) := by
  have hstep : ∀ (op : AddOp) (m : MemTableM),
      approximateMemoryUsage m < approximateMemoryUsage (memAdd c op m) := by
    intro op m
    have := addEncodedLen_ge op.key op.value
    simp only [approximateMemoryUsage, memAdd]
    omega
  refine ⟨fun ops m => runAdds_usage_mono c ops m, hstep, ?_⟩
  intro op ops m
  have h1 := hstep op m
  have h2 := runAdds_usage_mono c ops (memAdd c op m)
  rw [runAdds, List.foldl_cons]
  exact lt_of_lt_of_le h1 h2

/-- Claim C9: `seek_to_first` followed by full forward traversal yields
exactly the reverse of the sequence of entries produced by `seek_to_last`
followed by full backward traversal, for every table state. -/
theorem C9_iterator_restart (entries : List (List Nat)) :
    forwardTraversal entries = (backwardTraversal entries).reverse := by
  rw [forwardTraversal_eq, backwardTraversal_eq, List.reverse_reverse]

/-- Claim C10: `Get` writes to its value out-parameter only when it returns
Found: on a false return both out-parameters are unchanged, and on a true
return either the status is unchanged (the Found case) or the value is
unchanged and the status is NotFound (the tombstone case). -/
theorem C10_get_frame (c : List Nat → List Nat → Int) (m : MemTableM)
    (k : List Nat) (S : Nat) (v0 : List Nat) (s0 : Status) :
    ((memGet c m k S v0 s0).1 = false →
      (memGet c m k S v0 s0).2.1 = v0 ∧ (memGet c m k S v0 s0).2.2 = s0) ∧
    ((memGet c m k S v0 s0).1 = true →
      ((memGet c m k S v0 s0).2.2 = s0 ∨
       ((memGet c m k S v0 s0).2.1 = v0 ∧
        (memGet c m k S v0 s0).2.2 = Status.notFound))) := by
  unfold memGet
  cases hseek : seekGE c (lookupKeyBytes k S) m.entries with
  | none => simp
  | some e =>
    dsimp only
    cases hvar : getVarint32 e with
    | none => simp
    | some p =>
      obtain ⟨len, rest⟩ := p
      dsimp only
      split_ifs <;> simp

/-- Claim C1: `Get` returns exactly one of three outcomes, decided by the
entry the index seek finds at-or-after the lookup target: no entry — result
`false` with both out-parameters unchanged; an entry whose user key differs
from the lookup key under the user comparator — result `false`, unchanged;
a matching `Value` entry — result `true` with the stored value bytes; a
matching `Deletion` entry — result `true` with a `NotFound` status. -/
theorem C1_get_three_outcomes (c : List Nat → List Nat → Int) (ops : List AddOp)
    (hwf : OpsWF ops) (k : List Nat) (S : Nat) (v0 : List Nat) (s0 : Status) :
    (seekGE c (lookupKeyBytes k S) (mkMemTable c ops).entries = none →
      memGet c (mkMemTable c ops) k S v0 s0 = (false, v0, s0)) ∧
    (∀ e, seekGE c (lookupKeyBytes k S) (mkMemTable c ops).entries = some e →
      ∃ op ∈ ops, e = op.entry ∧
        ((c op.key k ≠ 0 →
            memGet c (mkMemTable c ops) k S v0 s0 = (false, v0, s0)) ∧
         (c op.key k = 0 →
            (op.ty = .value →
              memGet c (mkMemTable c ops) k S v0 s0 = (true, op.value, s0)) ∧
            (op.ty = .deletion →
              memGet c (mkMemTable c ops) k S v0 s0 =
                (true, v0, Status.notFound))))) := by
  constructor
  · intro h
    unfold memGet
    rw [h]
  · intro e he
    have hmem : e ∈ (mkMemTable c ops).entries := by
      obtain ⟨-, l1, l2, heql, -⟩ := seekGE_some c _ _ e he
      rw [heql]
      simp
    have hmap : e ∈ ops.map AddOp.entry :=
      ((mkMemTable_entries_perm c ops).mem_iff).mp hmem
    obtain ⟨op, hop, rfl⟩ := List.mem_map.mp hmap
    obtain ⟨hs, hk', hv'⟩ := hwf op hop
    have hget := memGet_seek_some c (mkMemTable c ops) k S v0 s0
      op.seq op.ty op.key op.value hk' hv' he
    refine ⟨op, hop, rfl, ?_, ?_⟩
    · intro hne
      rw [hget, if_neg hne]
    · intro h0
      constructor
      · intro hty
        rw [hget, if_pos h0, hty]
        rfl
      · intro hty
        rw [hget, if_pos h0, hty]
        rfl

/-- Claim C1 witness. -/
theorem C1_get_three_outcomes_witness :
    memGet bytewiseCompare
      (mkMemTable bytewiseCompare [⟨5, .value, [107], [120]⟩]) [107] 5 []
      Status.ok = (true, [120], Status.ok) := by
  have h := C1_get_three_outcomes bytewiseCompare [⟨5, .value, [107], [120]⟩]
    (by decide) [107] 5 [] Status.ok
  obtain ⟨op, hop, henc, hcase⟩ :=
    h.2 (AddOp.entry ⟨5, .value, [107], [120]⟩) (by decide)
  rw [List.mem_singleton] at hop
  subst hop
  exact (hcase.2 (by decide)).1 rfl

/-- Claim C8 (amended): the iterator's seek length-prefixes the caller's key
and positions the cursor at the first entry whose internal key is at-or-after
that key under the internal-key comparator; no zero-sequence/zero-tag suffix
is appended by the iterator, and a zero-tag target sorts after every version
of its user key (tags compare descending), so landing on the newest version
requires the caller to supply a maximal-tag target. -/
theorem C8_seek_positions_first_ge (c : List Nat → List Nat → Int)
    (entries : List (List Nat)) (p0 : Int) (k : List Nat)
    (hk : k.length < 2 ^ 32) :
    (∀ i : Nat, (i : Int) < (iterSeek c ⟨entries, p0⟩ k).pos →
      ∀ hi : i < entries.length,
        internalCompare c (getLengthPrefixedSlice entries[i]) k < 0) ∧
    (iterValid (iterSeek c ⟨entries, p0⟩ k) →
      ¬ internalCompare c (iterKey (iterSeek c ⟨entries, p0⟩ k)) k < 0) := by
  have hpred : ∀ x, keyComparatorFn c x (encodeKey k) =
      internalCompare c (getLengthPrefixedSlice x) k := by
    intro x
    unfold keyComparatorFn
    rw [glps_encodeKey k hk]
  constructor
  · intro i hipos hi
    have hfind : i < entries.findIdx
        (fun x => !(keyComparatorFn c x (encodeKey k) < 0)) := by
      simpa [iterSeek] using hipos
    have := List.not_of_lt_findIdx hfind
    rw [hpred] at this
    simpa using this
  · intro hvalid
    obtain ⟨h0, hlen⟩ := hvalid
    have hfind : entries.findIdx
        (fun x => !(keyComparatorFn c x (encodeKey k) < 0)) < entries.length := by
      simpa [iterSeek] using hlen
    have := List.findIdx_getElem (w := hfind)
    rw [hpred] at this
    have hkey : iterKey (iterSeek c ⟨entries, p0⟩ k) =
        getLengthPrefixedSlice
          entries[entries.findIdx (fun x => !(keyComparatorFn c x (encodeKey k) < 0))] := by
      unfold iterKey iterEntry iterSeek
      congr 1
      simp [List.getElem?_eq_getElem hfind]
    rw [hkey]
    simpa using this

/-- Claim C8 witness. -/
theorem C8_seek_positions_first_ge_witness :
    (∀ i : Nat, (i : Int) < (iterSeek bytewiseCompare
        ⟨(mkMemTable bytewiseCompare [⟨1, .value, [107], [97]⟩]).entries, 0⟩
        ([107] ++ encodeFixed64 (tagOf 1 ValueType.value))).pos →
      ∀ hi : i < (mkMemTable bytewiseCompare [⟨1, .value, [107], [97]⟩]).entries.length,
        internalCompare bytewiseCompare
          (getLengthPrefixedSlice
            (mkMemTable bytewiseCompare [⟨1, .value, [107], [97]⟩]).entries[i])
          ([107] ++ encodeFixed64 (tagOf 1 ValueType.value)) < 0) ∧
    (iterValid (iterSeek bytewiseCompare
        ⟨(mkMemTable bytewiseCompare [⟨1, .value, [107], [97]⟩]).entries, 0⟩
        ([107] ++ encodeFixed64 (tagOf 1 ValueType.value))) →
      ¬ internalCompare bytewiseCompare
          (iterKey (iterSeek bytewiseCompare
            ⟨(mkMemTable bytewiseCompare [⟨1, .value, [107], [97]⟩]).entries, 0⟩
            ([107] ++ encodeFixed64 (tagOf 1 ValueType.value))))
          ([107] ++ encodeFixed64 (tagOf 1 ValueType.value)) < 0) :=
  C8_seek_positions_first_ge bytewiseCompare
    (mkMemTable bytewiseCompare [⟨1, .value, [107], [97]⟩]).entries 0
    ([107] ++ encodeFixed64 (tagOf 1 ValueType.value)) (by decide)

/-- Claim C8 counterexample: the table holds one entry for user key `[107]`
(sequence 1), yet seeking with the zero-sequence/zero-tag target for that
user key leaves the cursor invalid — it does not land on the newest version
of the key, because a zero tag sorts after all real versions under the
descending tag order. -/
theorem C8_zero_tag_counterexample :
    (mkMemTable bytewiseCompare [⟨1, .value, [107], [97]⟩]).entries ≠ [] ∧
    ¬ iterValid (iterSeek bytewiseCompare
      ⟨(mkMemTable bytewiseCompare [⟨1, .value, [107], [97]⟩]).entries, 0⟩
      ([107] ++ encodeFixed64 0)) := by decide

lemma AddOp.entry_eq (op : AddOp) :
    op.entry = encodeEntry op.seq op.ty op.key op.value := rfl

/-- Claim C2: sequence-bounded visibility (newest wins).  For every table
built by `Add` calls with distinct 56-bit sequence numbers and every lookup
`(k, S)`, if some entry for that user key (equal under the user comparator)
has sequence at most `S`, then `Get` observes the one with the greatest such
sequence number: its value for a `Value` entry, a tombstone for a `Deletion`
entry.  In particular `add(1, Value, k, a); add(2, Value, k, b)` yields
`Found b` at `S = 2` and `Found a` at `S = 1` (the witness instantiates
exactly this). -/
theorem C2_newest_wins (c : List Nat → List Nat → Int) (L : CmpLaws c)
    (ops : List AddOp) (hwf : OpsWF ops) (hd : DistinctSeqs ops)
    (k : List Nat) (S : Nat) (hk : k.length + 8 < 2 ^ 32) (hS : S < 2 ^ 56)
    (v0 : List Nat) (s0 : Status) (opN : AddOp) (hmem : opN ∈ ops)
    (hmatch : c opN.key k = 0) (hle : opN.seq ≤ S)
    (hmax : ∀ op ∈ ops, c op.key k = 0 → op.seq ≤ S → op.seq ≤ opN.seq) :
    memGet c (mkMemTable c ops) k S v0 s0 = getOutcome opN.ty opN.value v0 s0 := by
  obtain ⟨hsN, hkN, hvN⟩ := hwf opN hmem
  have hstarMem : opN.entry ∈ (mkMemTable c ops).entries :=
    ((mkMemTable_entries_perm c ops).mem_iff).mpr (List.mem_map_of_mem _ hmem)
  have hPstar : ¬ keyComparatorFn c opN.entry (lookupKeyBytes k S) < 0 := by
    rw [AddOp.entry_eq,
        keyCmp_entry_lookup c opN.seq opN.ty opN.key opN.value k S hkN hk hsN hS]
    rintro (h | ⟨h0, hlt⟩) <;> omega
  cases hseek : seekGE c (lookupKeyBytes k S) (mkMemTable c ops).entries with
  | none =>
    exact absurd (seekGE_none c _ _ hseek opN.entry hstarMem) hPstar
  | some y =>
    obtain ⟨hPy, l1, l2, heql, hl1⟩ := seekGE_some c _ _ y hseek
    have hymem : y ∈ (mkMemTable c ops).entries := by
      rw [heql]
      simp
    obtain ⟨opY, hopY, hyeq⟩ :=
      List.mem_map.mp (((mkMemTable_entries_perm c ops).mem_iff).mp hymem)
    obtain ⟨hsY, hkY, hvY⟩ := hwf opY hopY
    have hPy' : 0 < c opY.key k ∨ (c opY.key k = 0 ∧ opY.seq ≤ S) := by
      rw [← hyeq, AddOp.entry_eq,
          keyCmp_entry_lookup c opY.seq opY.ty opY.key opY.value k S hkY hk hsY hS]
        at hPy
      rcases lt_trichotomy (c opY.key k) 0 with h | h | h
      · exact absurd (Or.inl h) hPy
      · refine Or.inr ⟨h, ?_⟩
        by_contra hgt
        exact hPy (Or.inr ⟨h, by omega⟩)
      · exact Or.inl h
    have hstarMem' := hstarMem
    rw [heql] at hstarMem'
    have hyeqN : y = opN.entry := by
      rcases List.mem_append.mp hstarMem' with h1 | h2
      · exact absurd (hl1 _ h1) hPstar
      · rcases List.mem_cons.mp h2 with heq1 | h3
        · exact heq1.symm
        · have hpw := mkMemTable_pairwise L ops
          rw [heql] at hpw
          obtain ⟨-, hp2, -⟩ := List.pairwise_append.mp hpw
          have hyle : keyComparatorFn c y opN.entry ≤ 0 :=
            (List.pairwise_cons.mp hp2).1 _ h3
          rw [← hyeq, AddOp.entry_eq, AddOp.entry_eq opN,
              keyCmp_entry_entry c opY.seq opN.seq opY.ty opN.ty
                opY.key opY.value opN.key opN.value hkY hkN hsY hsN] at hyle
          have hcY := code_lt opY.ty
          have hcN := code_lt opN.ty
          rcases hPy' with hgt | ⟨heq0, hSle⟩
          · rcases hyle with hlt | ⟨heqk, -⟩
            · have : c opY.key k < 0 := L.lt_of_lt_of_le hlt (le_of_eq hmatch)
              omega
            · have : c opY.key k = 0 := L.eq_trans heqk hmatch
              omega
          · have hseqle : opY.seq ≤ opN.seq := hmax opY hopY heq0 hSle
            rcases hyle with hlt | ⟨heqk, htag⟩
            · have : c opY.key k < 0 := L.lt_of_lt_of_le hlt (le_of_eq hmatch)
              omega
            · have hseqeq : opY.seq = opN.seq := by omega
              have hopeq : opY = opN := by
                by_contra hne
                have hsymm : Symmetric (fun a b : AddOp => a.seq ≠ b.seq) :=
                  fun _ _ h => h.symm
                exact (List.Pairwise.forall hsymm hd) hopY hmem hne hseqeq
              rw [← hyeq, hopeq]
    rw [hyeqN] at hseek
    have hget := memGet_seek_some c (mkMemTable c ops) k S v0 s0
      opN.seq opN.ty opN.key opN.value hkN hvN hseek
    rw [hget, if_pos hmatch]

/-- Claim C2 witness: the spec's concrete scenario. -/
theorem C2_newest_wins_witness :
    memGet bytewiseCompare
      (mkMemTable bytewiseCompare
        [⟨1, .value, [107], [97]⟩, ⟨2, .value, [107], [98]⟩]) [107] 2 []
      Status.ok = (true, [98], Status.ok) ∧
    memGet bytewiseCompare
      (mkMemTable bytewiseCompare
        [⟨1, .value, [107], [97]⟩, ⟨2, .value, [107], [98]⟩]) [107] 1 []
      Status.ok = (true, [97], Status.ok) := by
  constructor
  · exact C2_newest_wins bytewiseCompare bytewise_laws
      [⟨1, .value, [107], [97]⟩, ⟨2, .value, [107], [98]⟩]
      (by decide) (by decide) [107] 2 (by decide) (by decide) [] Status.ok
      ⟨2, .value, [107], [98]⟩ (by decide) (by decide) (by decide) (by decide)
  · exact C2_newest_wins bytewiseCompare bytewise_laws
      [⟨1, .value, [107], [97]⟩, ⟨2, .value, [107], [98]⟩]
      (by decide) (by decide) [107] 1 (by decide) (by decide) [] Status.ok
      ⟨1, .value, [107], [97]⟩ (by decide) (by decide) (by decide) (by decide)

/-- Claim C5: for every sequence of `Add` calls with distinct (56-bit)
sequence numbers, forward iterator traversal yields internal keys in
non-decreasing order under the internal-key (entry) comparator — user key
ascending under the user comparator — and, for equal user keys, with
sequence numbers strictly descending. -/
theorem C5_traversal_ordered (c : List Nat → List Nat → Int) (L : CmpLaws c)
    (ops : List AddOp) (hwf : OpsWF ops) (hd : DistinctSeqs ops) :
    List.Chain' (fun a b => internalCompare c a b ≤ 0)
      ((forwardTraversal (mkMemTable c ops).entries).map Prod.fst) ∧
    List.Chain' (fun a b =>
        c (extractUserKey a) (extractUserKey b) = 0 → seqOfIK b < seqOfIK a)
      ((forwardTraversal (mkMemTable c ops).entries).map Prod.fst) := by
  rw [forwardTraversal_eq, List.map_map]
  have hwfent : ∀ e ∈ (mkMemTable c ops).entries, ∃ op ∈ ops, e = op.entry := by
    intro e he
    obtain ⟨op, hop, heq⟩ :=
      List.mem_map.mp (((mkMemTable_entries_perm c ops).mem_iff).mp he)
    exact ⟨op, hop, heq.symm⟩
  have hple : (mkMemTable c ops).entries.Pairwise
      (fun a b => keyComparatorFn c a b ≤ 0) := mkMemTable_pairwise L ops
  have hpseq : (mkMemTable c ops).entries.Pairwise
      (fun a b => entrySeq a ≠ entrySeq b) := by
    rw [(mkMemTable_entries_perm c ops).pairwise_iff (fun {_ _} h => Ne.symm h),
        List.pairwise_map]
    refine List.Pairwise.imp_of_mem ?_ hd
    intro a b ha hb hne
    obtain ⟨hsa, hka, -⟩ := hwf a ha
    obtain ⟨hsb, hkb, -⟩ := hwf b hb
    rw [AddOp.entry_eq, AddOp.entry_eq, entrySeq_encode _ _ _ _ hsa hka,
        entrySeq_encode _ _ _ _ hsb hkb]
    exact hne
  have hfinal : (mkMemTable c ops).entries.Pairwise (fun a b =>
      internalCompare c (entryKV a).1 (entryKV b).1 ≤ 0 ∧
      (c (extractUserKey (entryKV a).1) (extractUserKey (entryKV b).1) = 0 →
        seqOfIK (entryKV b).1 < seqOfIK (entryKV a).1)) := by
    refine List.Pairwise.imp_of_mem ?_ (hple.and hpseq)
    intro a b ha hb hab
    obtain ⟨hab, hne⟩ := hab
    obtain ⟨opA, hopA, rfl⟩ := hwfent a ha
    obtain ⟨opB, hopB, rfl⟩ := hwfent b hb
    obtain ⟨hsA, hkA, hvA⟩ := hwf opA hopA
    obtain ⟨hsB, hkB, hvB⟩ := hwf opB hopB
    have hfstA : (entryKV opA.entry).1 =
        opA.key ++ encodeFixed64 (tagOf opA.seq opA.ty) := by
      rw [AddOp.entry_eq, entryKV_encode _ _ _ _ hkA hvA]
    have hfstB : (entryKV opB.entry).1 =
        opB.key ++ encodeFixed64 (tagOf opB.seq opB.ty) := by
      rw [AddOp.entry_eq, entryKV_encode _ _ _ _ hkB hvB]
    have hglpsA : getLengthPrefixedSlice opA.entry =
        opA.key ++ encodeFixed64 (tagOf opA.seq opA.ty) := by
      rw [AddOp.entry_eq, glps_encodeEntry _ _ _ _ hkA]
    have hglpsB : getLengthPrefixedSlice opB.entry =
        opB.key ++ encodeFixed64 (tagOf opB.seq opB.ty) := by
      rw [AddOp.entry_eq, glps_encodeEntry _ _ _ _ hkB]
    constructor
    · rw [hfstA, hfstB]
      have : keyComparatorFn c opA.entry opB.entry =
          internalCompare c
            (opA.key ++ encodeFixed64 (tagOf opA.seq opA.ty))
            (opB.key ++ encodeFixed64 (tagOf opB.seq opB.ty)) := by
        unfold keyComparatorFn
        rw [hglpsA, hglpsB]
      rw [← this]
      exact hab
    · intro heq
      rw [hfstA, hfstB, extractUserKey_ik _ _ (length_encodeFixed64 _),
          extractUserKey_ik _ _ (length_encodeFixed64 _)] at heq
      rw [hfstA, hfstB, seqOfIK_encode _ _ _ hsA, seqOfIK_encode _ _ _ hsB]
      rw [AddOp.entry_eq, AddOp.entry_eq,
          keyCmp_entry_entry c opA.seq opB.seq opA.ty opB.ty
            opA.key opA.value opB.key opB.value hkA hkB hsA hsB] at hab
      rw [AddOp.entry_eq, entrySeq_encode _ _ _ _ hsA hkA,
          AddOp.entry_eq, entrySeq_encode _ _ _ _ hsB hkB] at hne
      have hcA := code_lt opA.ty
      have hcB := code_lt opB.ty
      rcases hab with hlt | ⟨-, htag⟩
      · omega
      · omega
  constructor
  · rw [List.chain'_map]
    exact (hfinal.imp (fun h => h.1)).chain'
  · rw [List.chain'_map]
    exact (hfinal.imp (fun h => h.2)).chain'

/-- Claim C5 witness. -/
theorem C5_traversal_ordered_witness :
    List.Chain' (fun a b => internalCompare bytewiseCompare a b ≤ 0)
      ((forwardTraversal (mkMemTable bytewiseCompare
          [⟨1, .value, [107], [97]⟩, ⟨2, .value, [107], [98]⟩,
           ⟨3, .value, [106], [99]⟩]).entries).map Prod.fst) ∧
    List.Chain' (fun a b =>
        bytewiseCompare (extractUserKey a) (extractUserKey b) = 0 →
          seqOfIK b < seqOfIK a)
      ((forwardTraversal (mkMemTable bytewiseCompare
          [⟨1, .value, [107], [97]⟩, ⟨2, .value, [107], [98]⟩,
           ⟨3, .value, [106], [99]⟩]).entries).map Prod.fst) :=
  C5_traversal_ordered bytewiseCompare bytewise_laws
    [⟨1, .value, [107], [97]⟩, ⟨2, .value, [107], [98]⟩,
     ⟨3, .value, [106], [99]⟩] (by decide) (by decide)

end LevelDB
